import Mathlib

/-!
Verification of the run-length-bitmap library.

A bitmap is a list of integers encoding alternating runs of zero and one
bits, the first element counting zeros.  The library offers four Boolean
operations: `bitwiseOR`, `bitwiseAND`, `bitwiseXOR`, `bitwiseNOT`.

The definitions below are a shallow embedding of the JavaScript sources:

* `bitwiseNOT`       from `src/bitwiseNOT.js`;
* `bitwiseOR`        from `src/bitwiseOR.js`;
* `bitwiseAND`       from `src/bitwiseAND.js`;
* `bitwiseXOR`       from `src/bitwiseXOR.js`;
* the shared cursor machinery from `src/hof/withBitmapStateMap.js`.

JavaScript numbers are modelled as `Int` (all values reached by the code on
integer inputs are exact integers, well inside the safe range, and runs can
go negative when the code subtracts past zero).  The state map, an object
keyed by input position and iterated in ascending numeric key order, is
modelled as a list of entries parallel to the input list, a `none` cursor
standing for a deleted key.  The while loop of `withBitmapStateMap` is
modelled with explicit fuel; a `none` result means the fuel ran out, and the
termination theorems show a concrete fuel bound always suffices.
-/

namespace RunLengthBitmap

/-- `Number.MAX_SAFE_INTEGER`, the universe bound `U` (from `src/constants.js`). -/
def MAX_SAFE_INT : Int := 9007199254740991

/-- Cursor over one input: `i` is the index of the current run, `bits` the
remaining count inside it (from `withBitmapStateMap`: `{ i: 0, bits: bitmap[0] }`). -/
structure Cursor where
  i : Nat
  bits : Int
deriving Repr, DecidableEq

/-- One slot of the state map: the input bitmap together with its cursor;
`none` models a key that is absent from (or was deleted from) the map. -/
abbrev Entry := List Int × Option Cursor

/-- The whole state map, parallel to the list of input bitmaps. -/
abbrev MState := List Entry

/-- Advance a cursor to the next run of its input; `none` when the input is
exhausted (models `map[index].i++` followed by the `typeof bitmaps[index][map[index].i] !== "undefined"` check). -/
def advanceRun (bm : List Int) (c : Cursor) : Option Cursor :=
  match bm[c.i + 1]? with
  | some v => some ⟨c.i + 1, v⟩
  | none => none

/-- The rolling advance of a non-selected cursor by `btc` consumed bits: the
inner do-while loop of the consume-ones branch of OR (and, dually, of the
consume-zeros branch of AND).  Subtract, clamp at zero carrying the debt to
the next run, step to the next run whenever the current one is used up;
`none` when the input is exhausted.  `rest` is the list of runs after index
`i` (so the loads `bits = bitmaps[otherIndex][map[otherIndex].i]` walk down
`rest`); `roll` instantiates it with `bm.drop (i + 1)`. -/
def rollAux (i : Nat) (bits btc : Int) (rest : List Int) : Option Cursor :=
  if bits - btc < 0 then
    match rest with
    | [] => none
    | v :: rest2 => rollAux (i + 1) v (btc - bits) rest2
  else if bits - btc = 0 then
    match rest with
    | [] => none
    | v :: _ => some ⟨i + 1, v⟩
  else
    some ⟨i, bits - btc⟩

/-- The rolling advance, run against the input bitmap `bm`. -/
def roll (bm : List Int) (i : Nat) (bits btc : Int) : Option Cursor :=
  rollAux i bits btc (bm.drop (i + 1))

/-- The single-subtraction advance of a non-selected cursor: the body of the
for-in loop in the consume-zeros branch of OR (and the consume-ones branch
of AND).  No rolling: a negative remainder is discarded when the next run is
loaded. -/
def stepOnce (bm : List Int) (c : Cursor) (btc : Int) : Option Cursor :=
  if c.bits - btc ≤ 0 then advanceRun bm c else some ⟨c.i, c.bits - btc⟩

/-- The OR comparator (`src/bitwiseOR.js`): between two ones-phase cursors
prefer the larger run, a ones-phase cursor beats a zeros-phase one, and
between two zeros-phase cursors prefer the smaller run. -/
def orComparator (a b : Cursor) : Int :=
  if a.i % 2 = 1 ∧ b.i % 2 = 1 then b.bits - a.bits
  else if a.i % 2 = 1 then -1
  else if b.i % 2 = 1 then 1
  else a.bits - b.bits

/-- The AND comparator (`src/bitwiseAND.js`): dual of the OR comparator with
the roles of the zeros phase and the ones phase exchanged. -/
def andComparator (a b : Cursor) : Int :=
  if a.i % 2 = 0 ∧ b.i % 2 = 0 then b.bits - a.bits
  else if a.i % 2 = 0 then -1
  else if b.i % 2 = 0 then 1
  else a.bits - b.bits

/-- Linear scan of the state map in ascending key order keeping the first
minimal live cursor, the model of `objectMin(map, { returnAsKeyVal: true, comparator })`
from the external `js-utl` dependency (object keys that are array indices
are iterated in ascending numeric order; a later candidate replaces the
current minimum only when the comparator returns a negative value on it). -/
def scanMin (cmp : Cursor → Cursor → Int) : MState → Nat →
    Option (Nat × List Int × Cursor) → Option (Nat × List Int × Cursor)
  | [], _, acc => acc
  | (_, none) :: rest, k, acc => scanMin cmp rest (k + 1) acc
  | (bm, some c) :: rest, k, acc =>
    match acc with
    | none => scanMin cmp rest (k + 1) (some (k, bm, c))
    | some (j, b, m) =>
      scanMin cmp rest (k + 1) (if cmp c m < 0 then some (k, bm, c) else some (j, b, m))

/-- Pick the governing cursor for this iteration. -/
def selectMin (cmp : Cursor → Cursor → Int) (st : MState) : Option (Nat × List Int × Cursor) :=
  scanMin cmp st 0 none

/-- Apply the rolling advance to one entry (live cursors only). -/
def rollEntry (btc : Int) : Entry → Entry
  | (bm, none) => (bm, none)
  | (bm, some c) => (bm, roll bm c.i c.bits btc)

/-- Apply the single-subtraction advance to one entry (live cursors only). -/
def stepEntry (btc : Int) : Entry → Entry
  | (bm, none) => (bm, none)
  | (bm, some c) => (bm, stepOnce bm c btc)

/-- Rolling advance over the whole map, aborting like the AND consume-zeros
branch: the first exhausted cursor makes the merge return immediately,
modelled by `none`. -/
def rollEntries (btc : Int) : MState → Option MState
  | [] => some []
  | (bm, none) :: rest => (rollEntries btc rest).map (fun r => (bm, none) :: r)
  | (bm, some c) :: rest =>
    match roll bm c.i c.bits btc with
    | none => none
    | some c' => (rollEntries btc rest).map (fun r => (bm, some c') :: r)

/-- Single-subtraction advance over the whole map, aborting like the AND
consume-ones branch on the first exhausted cursor. -/
def stepEntries (btc : Int) : MState → Option MState
  | [] => some []
  | (bm, none) :: rest => (stepEntries btc rest).map (fun r => (bm, none) :: r)
  | (bm, some c) :: rest =>
    match stepOnce bm c btc with
    | none => none
    | some c' => (stepEntries btc rest).map (fun r => (bm, some c') :: r)

/-- Append `v` to the output, merging it into the last element when the last
index is odd (a ones-run): the emission used when OR consumes ones, and also
the final append of `bitwiseNOT`.  Mirrors
`if (lastResultBitmapIndex % 2 === 1) resultBitmap[last] += v else resultBitmap.push(v)`,
where an empty output has `lastResultBitmapIndex === -1` and pushes. -/
def pushOrMergeAtOnes (res : List Int) (v : Int) : List Int :=
  if res.length % 2 = 0 ∧ res.length ≠ 0 then res.dropLast ++ [res.getLastD 0 + v]
  else res ++ [v]

/-- Append `v` to the output, merging it into the last element when the last
index is even (a zeros-run): the emission used when AND consumes zeros. -/
def pushOrMergeAtZeros (res : List Int) (v : Int) : List Int :=
  if res.length % 2 = 1 then res.dropLast ++ [res.getLastD 0 + v]
  else res ++ [v]

/-- `true` when the state map holds no live cursor (`isObjectEmpty(map)`). -/
def allNone (st : MState) : Bool :=
  st.all (fun e => e.2.isNone)

/-- One iteration of the OR merge callback (`src/bitwiseOR.js`): select the
governing cursor, remove it from the map, advance the other cursors and emit
one run, then reinsert the selected cursor advanced to its next run (deleted
when exhausted).  OR never breaks out of the loop early. -/
def orIteration (st : MState) (res : List Int) : MState × List Int :=
  match selectMin orComparator st with
  | none => (st, res)
  | some (idx, bm, c) =>
    let btc := c.bits
    if c.i % 2 = 1 then
      ((st.map (rollEntry btc)).set idx (bm, advanceRun bm c),
        pushOrMergeAtOnes res btc)
    else
      ((st.map (stepEntry btc)).set idx (bm, advanceRun bm c), res ++ [btc])

/-- Result of one AND iteration: either the merge terminates with the output
built so far (`return resultBitmap` in the source) or it continues. -/
inductive AndStep where
  | done (res : List Int)
  | cont (st : MState) (res : List Int)

/-- One iteration of the AND merge callback (`src/bitwiseAND.js`).  In the
consume-zeros branch the other cursors roll before the zeros are emitted, so
an exhausted cursor ends the merge with the zeros not yet appended; in the
consume-ones branch the ones are pushed first.  Exhaustion of the selected
cursor on reinsertion also ends the merge. -/
def andIteration (st : MState) (res : List Int) : AndStep :=
  match selectMin andComparator st with
  | none => .cont st res
  | some (idx, bm, c) =>
    let btc := c.bits
    let st1 := st.set idx (bm, none)
    if c.i % 2 = 0 then
      match rollEntries btc st1 with
      | none => .done res
      | some st2 =>
        let res2 := pushOrMergeAtZeros res btc
        match advanceRun bm c with
        | none => .done res2
        | some c' => .cont (st2.set idx (bm, some c')) res2
    else
      let res2 := res ++ [btc]
      match stepEntries btc st1 with
      | none => .done res2
      | some st2 =>
        match advanceRun bm c with
        | none => .done res2
        | some c' => .cont (st2.set idx (bm, some c')) res2

/-- The while loop of `withBitmapStateMap` running the OR callback, with
explicit fuel; `none` models a loop that did not finish within the fuel. -/
def orLoop : Nat → MState → List Int → Option (List Int)
  | 0, _, _ => none
  | fuel + 1, st, res =>
    if allNone st then some res
    else
      let p := orIteration st res
      orLoop fuel p.1 p.2

/-- The while loop of `withBitmapStateMap` running the AND callback, with
explicit fuel. -/
def andLoop : Nat → MState → List Int → Option (List Int)
  | 0, _, _ => none
  | fuel + 1, st, res =>
    if allNone st then some res
    else
      match andIteration st res with
      | .done r => some r
      | .cont st' res' => andLoop fuel st' res'

/-- The final step of `withBitmapStateMap` (and of `bitwiseXOR`): pop the
last element when the output ends at an even index, that is when its length
is odd (`(resultBitmap.length - 1) % 2 === 0`; an empty output has length
`-1 % 2 === -1` in JavaScript and is left alone). -/
def popTrailing (res : List Int) : List Int :=
  if res.length % 2 = 1 then res.dropLast else res

/-- Initial state map built by `withBitmapStateMap` in `src/hof/withBitmapStateMap.js`:
an input gets a cursor exactly when `bitmap.length > 1`. -/
def initState (bitmaps : List (List Int)) : MState :=
  bitmaps.map (fun bm => (bm, if 1 < bm.length then some ⟨0, bm.headI⟩ else none))

/-- Fuel bound for the merge loops: the total number of runs over all inputs
plus one (each iteration strictly decreases the number of unconsumed runs). -/
def fuelOf (bitmaps : List (List Int)) : Nat :=
  (bitmaps.map List.length).sum + 1

/-- `bitwiseOR` from `src/bitwiseOR.js`: returns `[]` at once when no input
has a cursor, otherwise runs the merge loop and strips a trailing zero-run. -/
def bitwiseOR (bitmaps : List (List Int)) : Option (List Int) :=
  if allNone (initState bitmaps) then some []
  else (orLoop (fuelOf bitmaps) (initState bitmaps) []).map popTrailing

/-- `bitwiseAND` from `src/bitwiseAND.js`: returns `[]` at once when some
input has no run pair (`bitmap.length ≤ 1`), otherwise runs the merge loop
and strips a trailing zero-run. -/
def bitwiseAND (bitmaps : List (List Int)) : Option (List Int) :=
  if bitmaps.any (fun bm => bm.length ≤ 1) then some []
  else (andLoop (fuelOf bitmaps) (initState bitmaps) []).map popTrailing

/-- `bitwiseNOT` from `src/bitwiseNOT.js`.  An empty input yields the full
universe of ones.  Otherwise the runs are copied with the phase shifted:
with leading zeros present a `0` is prepended, with the input starting on
ones the leading element is skipped; finally the remaining
`MAX_SAFE_INT - total` rightmost ones are appended, merged into the last
element when that element already sits at a ones index. -/
def bitwiseNOT (bitmap : List Int) : List Int :=
  if bitmap.length = 0 then [0, MAX_SAFE_INT]
  else
    let body := if 0 < bitmap.headI then (0 : Int) :: bitmap else bitmap.drop 1
    let total := (if 0 < bitmap.headI then bitmap else bitmap.drop 1).sum
    pushOrMergeAtOnes body (MAX_SAFE_INT - total)

/-- The binary XOR helper of `src/bitwiseXOR.js`:
`AND(OR(A, B), OR(NOT(A), NOT(B)))`. -/
def xorPair (a b : List Int) : Option (List Int) :=
  (bitwiseOR [a, b]).bind (fun u =>
    (bitwiseOR [bitwiseNOT a, bitwiseNOT b]).bind (fun v =>
      bitwiseAND [u, v]))

/-- The left-to-right reduction loop of `bitwiseXOR` over the remaining inputs. -/
def xorFoldAux : List Int → List (List Int) → Option (List Int)
  | acc, [] => some acc
  | acc, b :: rest => (xorPair acc b).bind (fun r => xorFoldAux r rest)

/-- `bitwiseXOR` from `src/bitwiseXOR.js`: `[]` for no input, the input
itself (after the trailing pop) for one input, and the left fold of the
binary XOR otherwise, ending with the trailing pop. -/
def bitwiseXOR (bitmaps : List (List Int)) : Option (List Int) :=
  match bitmaps with
  | [] => some []
  | [b] => some (popTrailing b)
  | a :: b :: rest =>
    ((xorPair a b).bind (fun r => xorFoldAux r rest)).map popTrailing

/-- The caller-visible content of the input array after `bitwiseXOR(bitmap)`
with exactly one argument.  In the source, `resultBitmap = bitmaps[0]`
aliases the caller's array (no copy is made) and the final
`resultBitmap.pop()` therefore acts on the caller's array itself. -/
def bitwiseXORInputAfterCall (bitmap : List Int) : List Int :=
  popTrailing bitmap

/-- A canonical run-length bitmap as specified: either empty, or of even
length (no trailing zero-run) with a non-negative first element and all
later elements positive (no interior or trailing zero-length runs), all
bounded by the universe. -/
def Canonical (A : List Int) : Prop :=
  A = [] ∨
    (A.length % 2 = 0 ∧ 0 ≤ A.headI ∧ A.headI ≤ MAX_SAFE_INT ∧
      ∀ x ∈ A.drop 1, 0 < x ∧ x ≤ MAX_SAFE_INT)

instance (A : List Int) : Decidable (Canonical A) := by
  unfold Canonical; infer_instance

/-- Number of runs of an input not yet consumed by its cursor: the
termination measure contribution of one state-map entry. -/
def contrib : Entry → Nat
  | (_, none) => 0
  | (bm, some c) => bm.length - c.i

/-- Termination measure of the merge loops: total number of unconsumed runs. -/
def measureOf (st : MState) : Nat := (st.map contrib).sum

/-- Well-formedness of one entry: a live cursor sits on an existing run. -/
def EntryWF : Entry → Prop
  | (_, none) => True
  | (bm, some c) => c.i < bm.length

/-- Well-formedness of the whole state map. -/
def StateWF (st : MState) : Prop := ∀ k, (hk : k < st.length) → EntryWF st[k]

/-! ### Basic lemmas about the emission helpers and `bitwiseNOT` -/

theorem pushOrMergeAtOnes_sum (L : List Int) (v : Int) :
    (pushOrMergeAtOnes L v).sum = L.sum + v := by
  unfold pushOrMergeAtOnes
  split
  · rename_i hc
    rcases L.eq_nil_or_concat with rfl | ⟨L', a, rfl⟩
    · exact absurd rfl hc.2
    · simp [List.sum_append, List.dropLast_concat]
      ring
  · simp [List.sum_append]

theorem pushOrMergeAtOnes_odd (L : List Int) (v : Int) (h : L.length % 2 = 1) :
    pushOrMergeAtOnes L v = L ++ [v] := by
  unfold pushOrMergeAtOnes
  have hn : ¬(L.length % 2 = 0 ∧ L.length ≠ 0) := by omega
  rw [if_neg hn]

theorem pushOrMergeAtOnes_length_even (L : List Int) (v : Int) (h : L ≠ []) :
    (pushOrMergeAtOnes L v).length % 2 = 0 := by
  unfold pushOrMergeAtOnes
  split
  · rename_i hc
    rcases L.eq_nil_or_concat with rfl | ⟨L', a, rfl⟩
    · exact absurd rfl h
    · simp [List.dropLast_concat] at hc ⊢
      omega
  · rename_i hc
    have hL : L.length ≠ 0 := fun hz => h (List.length_eq_zero.mp hz)
    simp only [List.length_append, List.length_cons, List.length_nil]
    omega

theorem bitwiseNOT_sum (B : List Int) : (bitwiseNOT B).sum = MAX_SAFE_INT := by
  unfold bitwiseNOT
  split
  · decide
  · rw [pushOrMergeAtOnes_sum]
    split
    · simp
    · simp

theorem popTrailing_length_even (L : List Int) : (popTrailing L).length % 2 = 0 := by
  unfold popTrailing
  split
  · rename_i h
    simp only [List.length_dropLast]
    omega
  · omega

theorem bitwiseNOT_pos (a : Int) (t : List Int) (ha : 0 < a) :
    bitwiseNOT (a :: t) = pushOrMergeAtOnes (0 :: a :: t) (MAX_SAFE_INT - (a :: t).sum) := by
  unfold bitwiseNOT
  simp [List.headI, ha]

theorem bitwiseNOT_nonpos (a : Int) (t : List Int) (ha : ¬ 0 < a) :
    bitwiseNOT (a :: t) = pushOrMergeAtOnes t (MAX_SAFE_INT - t.sum) := by
  unfold bitwiseNOT
  simp [List.headI, ha]

/-! ### Claim C1: double complement -/

/-- Claim C1, counterexample: for the canonical bitmap `[10, 2]` (sum of runs
`12 ≤ U`) the double complement is not structurally equal to the input: NOT
always extends its output to the full universe, so a second NOT appends an
explicit `U - 12` zeros-run and a zero-length ones-run. -/
theorem claim_C1_counterexample :
    bitwiseNOT (bitwiseNOT [10, 2]) = [10, 2, 9007199254740979, 0] ∧
      bitwiseNOT (bitwiseNOT [10, 2]) ≠ [10, 2] := by
  constructor
  · decide
  · decide

/-- Claim C1, amended: for every canonical bitmap `A` with sum of runs at
most `U`, `not(not(A))` equals `A` with an explicit zeros-run of length
`U - sum(A)` and a zero-length ones-run appended; it is never structurally
equal to `A` itself (the two agree as bit-sets over the universe). -/
theorem claim_C1_amended (A : List Int) (hA : Canonical A)
    (hsum : A.sum ≤ MAX_SAFE_INT) :
    bitwiseNOT (bitwiseNOT A) = A ++ [MAX_SAFE_INT - A.sum, 0] := by
  rcases hA with rfl | ⟨hlen, hhead, _, htail⟩
  · decide
  · cases A with
    | nil => decide
    | cons a t =>
      by_cases hpos : 0 < a
      · rw [bitwiseNOT_pos a t hpos]
        rw [pushOrMergeAtOnes_odd _ _ (by simp at hlen ⊢; omega)]
        simp only [List.cons_append]
        rw [bitwiseNOT_nonpos 0 (a :: (t ++ [MAX_SAFE_INT - (a :: t).sum])) (by omega)]
        have h2 : MAX_SAFE_INT - (a :: (t ++ [MAX_SAFE_INT - (a :: t).sum])).sum = 0 := by
          simp [List.sum_append]
          ring
        rw [h2]
        rw [pushOrMergeAtOnes_odd _ _ (by simp at hlen ⊢; omega)]
        simp
      · have ha0 : a = 0 := by simp [List.headI] at hhead; omega
        subst ha0
        cases t with
        | nil => simp at hlen
        | cons b t2 =>
          have hb : 0 < b := (htail b (by simp)).1
          rw [bitwiseNOT_nonpos 0 (b :: t2) (by omega)]
          rw [pushOrMergeAtOnes_odd _ _ (by simp at hlen ⊢; omega)]
          simp only [List.cons_append]
          rw [bitwiseNOT_pos b (t2 ++ [MAX_SAFE_INT - (b :: t2).sum]) hb]
          have h2 : MAX_SAFE_INT -
              (b :: (t2 ++ [MAX_SAFE_INT - (b :: t2).sum])).sum = 0 := by
            simp [List.sum_append]
            ring
          rw [h2]
          rw [pushOrMergeAtOnes_odd _ _ (by simp at hlen ⊢; omega)]
          simp

/-- Claim C1, witness for the amended statement at `A = [0, 4]`. -/
theorem claim_C1_amended_witness :
    bitwiseNOT (bitwiseNOT [0, 4]) =
      [0, 4] ++ [MAX_SAFE_INT - ([0, 4] : List Int).sum, 0] :=
  claim_C1_amended [0, 4] (by decide) (by decide)

/-! ### Claim C2: input mutation by unary XOR -/

/-- Claim C2: evaluation at the failing input.  Calling `bitwiseXOR` with
the single bitmap `[5]` leaves the caller's array empty: `resultBitmap`
aliases the input array and the final pop removes its element. -/
theorem claim_C2 : bitwiseXORInputAfterCall [5] = [] ∧ ([5] : List Int) ≠ [] := by
  constructor
  · decide
  · decide

/-! ### Claim C3: DomainOverflow on NOT -/

/-- Claim C3, counterexample: for the input `[U, 1]`, whose runs sum to
`U + 1 > U`, `bitwiseNOT` does not fail: it returns a run-length array
containing the negative run `-1`.  No `DomainOverflow` check exists in the
code. -/
theorem claim_C3_counterexample :
    bitwiseNOT [9007199254740991, 1] = [0, 9007199254740991, 1, -1] := by
  decide

/-- Claim C3, amended: `bitwiseNOT` never fails on any input.  For every
input list of runs, overflowing or not, it returns a run-length array whose
runs sum to exactly `U`; when the input runs sum to more than `U` the final
appended run `U - S` is negative instead of an error being raised. -/
theorem claim_C3_amended (B : List Int) : (bitwiseNOT B).sum = MAX_SAFE_INT :=
  bitwiseNOT_sum B

/-! ### Claim C5: AND short-circuit -/

/-- Claim C5, counterexample: the bitmap `[3, 0]` contains no odd-indexed
element greater than zero, yet `bitwiseAND` does not return `[]` for it: the
short-circuit tests `bitmap.length > 1`, which holds for `[3, 0]`. -/
theorem claim_C5_counterexample :
    bitwiseAND [[3, 0]] = some [3, 0] ∧ ([3, 0] : List Int) ≠ [] := by
  constructor
  · decide
  · decide

/-- Claim C5, amended: `bitwiseAND` returns `[]` immediately whenever some
input bitmap has length at most 1 (for example `[]` or `[5]`); a bitmap such
as `[3, 0]`, of length 2 but with no ones, is not short-circuited. -/
theorem claim_C5_amended (bitmaps : List (List Int))
    (h : ∃ b ∈ bitmaps, b.length ≤ 1) : bitwiseAND bitmaps = some [] := by
  unfold bitwiseAND
  rw [if_pos]
  simpa using h

/-- Claim C5, witness for the amended statement at the input list `[[5]]`. -/
theorem claim_C5_amended_witness : bitwiseAND [[5]] = some [] :=
  claim_C5_amended [[5]] ⟨[5], by simp⟩

/-! ### Claim C6: InvalidRun validation -/

/-- Claim C6, counterexample: the input `[-5]` contains a negative value,
yet `bitwiseNOT` does not reject it: it runs the normal code path and
returns the all-zeros-universe array `[U]`.  No `InvalidRun` check exists
anywhere in the code. -/
theorem claim_C6_counterexample : bitwiseNOT [-5] = [9007199254740991] := by
  decide

/-- Claim C6, amended: no validation happens at the API boundary; a negative
run flows into the operation unchecked.  For any single-run bitmap `[x]`
with `x ≤ 0`, `bitwiseNOT` treats the run as a start-on-ones marker, skips
it, and returns `[U]`. -/
theorem claim_C6_amended (x : Int) (hx : x ≤ 0) :
    bitwiseNOT [x] = [MAX_SAFE_INT] := by
  rw [bitwiseNOT_nonpos x [] (by omega)]
  decide

/-- Claim C6, witness for the amended statement at `x = -7`. -/
theorem claim_C6_amended_witness : bitwiseNOT [-7] = [MAX_SAFE_INT] :=
  claim_C6_amended (-7) (by decide)

/-! ### Claim C7: the three-input OR scenario -/

/-- Claim C7: `or([10,2], [15,1], [0,4,12,2])` returns exactly
`[0,4,6,2,3,3]` (the merge loop finishes within its fuel bound and produces
the expected canonical output). -/
theorem claim_C7 :
    bitwiseOR [[10, 2], [15, 1], [0, 4, 12, 2]] = some [0, 4, 6, 2, 3, 3] := by
  decide

/-! ### Claim C8: NOT of the empty bitmap -/

/-- Claim C8: `not([])` returns exactly `[0, 9007199254740991]`, the
all-ones bitmap over the default universe. -/
theorem claim_C8 : bitwiseNOT [] = [0, 9007199254740991] := by
  decide

/-! ### Claim C10: NOT output always sums to the universe -/

/-- Claim C10: for every input bitmap of non-negative runs summing to at
most `U`, the runs of the NOT output sum to exactly `U`: the complement
encodes every universe position explicitly. -/
theorem claim_C10 (B : List Int) (_hpos : ∀ x ∈ B, 0 ≤ x)
    (_hsum : B.sum ≤ MAX_SAFE_INT) : (bitwiseNOT B).sum = MAX_SAFE_INT :=
  bitwiseNOT_sum B

/-- Claim C10, witness at `B = [10, 2]`. -/
theorem claim_C10_witness : (bitwiseNOT [10, 2]).sum = MAX_SAFE_INT :=
  claim_C10 [10, 2] (by decide) (by decide)

/-! ### Claim C4: canonical form of outputs -/

/-- Claim C4, counterexample.  Two violations on valid inputs: `not([0])`
returns the single zeros-run `[U]`, an output that ends on a (huge) zero-run;
and `or([2,0,0,3])` reproduces the interior zero-length runs of its input
instead of coalescing the two ones-runs. -/
theorem claim_C4_counterexample :
    bitwiseNOT [0] = [9007199254740991] ∧
      bitwiseOR [[2, 0, 0, 3]] = some [2, 0, 0, 3] := by
  constructor
  · decide
  · decide

theorem bitwiseNOT_length_even (b : List Int) (h : b.length = 1 → 0 < b.headI) :
    (bitwiseNOT b).length % 2 = 0 := by
  cases b with
  | nil => decide
  | cons a t =>
    by_cases hpos : 0 < a
    · rw [bitwiseNOT_pos a t hpos]
      exact pushOrMergeAtOnes_length_even _ _ (by simp)
    · rw [bitwiseNOT_nonpos a t hpos]
      cases t with
      | nil => exact absurd (h (by simp)) (by simpa [List.headI] using hpos)
      | cons b2 t2 => exact pushOrMergeAtOnes_length_even _ _ (by simp)

/-- Claim C4, amended: every OR, AND and XOR output ends on the final
trailing-zeros pop and therefore has even length, so it never ends on a
zero-run at an even index; the NOT output likewise has even length except
for a single-run input `[x]` with `x ≤ 0`, where `not` returns the
odd-length `[U]`.  Outputs can, however, contain zero-length runs: interior
zero-length runs of the inputs are reproduced (for example
`or([2,0,0,3]) = [2,0,0,3]`), so the no-interior-zero-run part of the claim
fails. -/
theorem claim_C4_amended :
    (∀ bms r, bitwiseOR bms = some r → r.length % 2 = 0) ∧
      (∀ bms r, bitwiseAND bms = some r → r.length % 2 = 0) ∧
      (∀ bms r, bitwiseXOR bms = some r → r.length % 2 = 0) ∧
      (∀ b : List Int, (b.length = 1 → 0 < b.headI) →
        (bitwiseNOT b).length % 2 = 0) := by
  refine ⟨?_, ?_, ?_, bitwiseNOT_length_even⟩
  · intro bms r h
    unfold bitwiseOR at h
    split at h
    · cases h; rfl
    · rcases Option.map_eq_some'.mp h with ⟨x, _, rfl⟩
      exact popTrailing_length_even x
  · intro bms r h
    unfold bitwiseAND at h
    split at h
    · cases h; rfl
    · rcases Option.map_eq_some'.mp h with ⟨x, _, rfl⟩
      exact popTrailing_length_even x
  · intro bms r h
    unfold bitwiseXOR at h
    split at h
    · cases h; rfl
    · rename_i b
      cases h
      exact popTrailing_length_even b
    · rcases Option.map_eq_some'.mp h with ⟨x, _, rfl⟩
      exact popTrailing_length_even x

/-- Claim C4, witness for the amended statement: concrete even-length
outputs for OR, AND, XOR and NOT. -/
theorem claim_C4_amended_witness :
    ([0, 6] : List Int).length % 2 = 0 ∧
      ([2, 2] : List Int).length % 2 = 0 ∧
      ([0, 2, 2, 2] : List Int).length % 2 = 0 ∧
      (bitwiseNOT [10, 2]).length % 2 = 0 :=
  ⟨claim_C4_amended.1 [[0, 4], [2, 4]] [0, 6] (by decide),
    claim_C4_amended.2.1 [[0, 4], [2, 4]] [2, 2] (by decide),
    claim_C4_amended.2.2.1 [[0, 4], [2, 4]] [0, 2, 2, 2] (by decide),
    claim_C4_amended.2.2.2 [10, 2] (by decide)⟩

/-! ### Claim C9: termination of the merge loops

Every iteration of the while loop strictly decreases the total number of
unconsumed runs, so the fuel bound `fuelOf` always suffices and both merges
return a result. -/

theorem rollAux_spec (rest : List Int) : ∀ (i : Nat) (bits btc : Int) (c' : Cursor),
    rollAux i bits btc rest = some c' → i ≤ c'.i ∧ c'.i ≤ i + rest.length := by
  induction rest with
  | nil =>
    intro i bits btc c' h
    unfold rollAux at h
    split at h
    · exact absurd h (by simp)
    · split at h
      · exact absurd h (by simp)
      · cases h
        simp
  | cons v rest2 ih =>
    intro i bits btc c' h
    unfold rollAux at h
    split at h
    · have := ih (i + 1) v (btc - bits) c' h
      simp only [List.length_cons]
      omega
    · split at h
      · cases h
        simp only [List.length_cons]
        omega
      · cases h
        simp

theorem roll_i_le (bm : List Int) (i : Nat) (bits btc : Int) (c' : Cursor)
    (h : roll bm i bits btc = some c') : i ≤ c'.i := by
  unfold roll at h
  exact (rollAux_spec _ _ _ _ _ h).1

theorem roll_lt_length (bm : List Int) (i : Nat) (bits btc : Int) (c' : Cursor)
    (hi : i < bm.length) (h : roll bm i bits btc = some c') : c'.i < bm.length := by
  unfold roll at h
  have h2 := (rollAux_spec _ _ _ _ _ h).2
  rw [List.length_drop] at h2
  omega

theorem advanceRun_spec (bm : List Int) (c c' : Cursor)
    (h : advanceRun bm c = some c') : c'.i = c.i + 1 ∧ c'.i < bm.length := by
  unfold advanceRun at h
  split at h
  · rename_i v heq
    cases h
    exact ⟨rfl, (List.getElem?_eq_some.mp heq).1⟩
  · exact Option.noConfusion h

theorem stepOnce_spec (bm : List Int) (c : Cursor) (btc : Int) (c' : Cursor)
    (h : stepOnce bm c btc = some c') :
    c.i ≤ c'.i ∧ (c.i < bm.length → c'.i < bm.length) := by
  unfold stepOnce at h
  split at h
  · obtain ⟨h1, h2⟩ := advanceRun_spec bm c c' h
    omega
  · cases h
    exact ⟨le_rfl, fun hh => hh⟩

theorem contrib_rollEntry_le (btc : Int) (e : Entry) :
    contrib (rollEntry btc e) ≤ contrib e := by
  rcases e with ⟨bm, oc⟩
  cases oc with
  | none => exact le_rfl
  | some c =>
    show contrib (bm, roll bm c.i c.bits btc) ≤ contrib (bm, some c)
    cases hr : roll bm c.i c.bits btc with
    | none => simp [contrib]
    | some c2 =>
      have := roll_i_le bm c.i c.bits btc c2 hr
      simp only [contrib]
      omega

theorem contrib_stepEntry_le (btc : Int) (e : Entry) :
    contrib (stepEntry btc e) ≤ contrib e := by
  rcases e with ⟨bm, oc⟩
  cases oc with
  | none => exact le_rfl
  | some c =>
    show contrib (bm, stepOnce bm c btc) ≤ contrib (bm, some c)
    cases hr : stepOnce bm c btc with
    | none => simp [contrib]
    | some c2 =>
      have := (stepOnce_spec bm c btc c2 hr).1
      simp only [contrib]
      omega

theorem EntryWF_rollEntry (btc : Int) (e : Entry) (h : EntryWF e) :
    EntryWF (rollEntry btc e) := by
  rcases e with ⟨bm, oc⟩
  cases oc with
  | none => trivial
  | some c =>
    show EntryWF (bm, roll bm c.i c.bits btc)
    cases hr : roll bm c.i c.bits btc with
    | none => trivial
    | some c2 => exact roll_lt_length bm c.i c.bits btc c2 h hr

theorem EntryWF_stepEntry (btc : Int) (e : Entry) (h : EntryWF e) :
    EntryWF (stepEntry btc e) := by
  rcases e with ⟨bm, oc⟩
  cases oc with
  | none => trivial
  | some c =>
    show EntryWF (bm, stepOnce bm c btc)
    cases hr : stepOnce bm c btc with
    | none => trivial
    | some c2 => exact (stepOnce_spec bm c btc c2 hr).2 h

theorem measureOf_cons (e : Entry) (st : MState) :
    measureOf (e :: st) = contrib e + measureOf st := by
  simp [measureOf]

theorem measureOf_map_le (f : Entry → Entry) (hf : ∀ e, contrib (f e) ≤ contrib e) :
    ∀ st : MState, measureOf (st.map f) ≤ measureOf st := by
  intro st
  induction st with
  | nil => simp [measureOf]
  | cons e rest ih =>
    simp only [List.map_cons, measureOf_cons]
    exact Nat.add_le_add (hf e) ih

theorem measureOf_map_set_lt (f : Entry → Entry) (hf : ∀ e, contrib (f e) ≤ contrib e)
    (e' : Entry) :
    ∀ (st : MState) (idx : Nat) (hidx : idx < st.length),
      contrib e' < contrib st[idx] →
      measureOf ((st.map f).set idx e') < measureOf st := by
  intro st
  induction st with
  | nil =>
    intro idx hidx
    simp at hidx
  | cons e rest ih =>
    intro idx hidx hlt
    cases idx with
    | zero =>
      simp only [List.map_cons, List.set_cons_zero]
      rw [measureOf_cons, measureOf_cons]
      have h1 := measureOf_map_le f hf rest
      have h2 : contrib e' < contrib e := by simpa using hlt
      omega
    | succ j =>
      simp only [List.map_cons, List.set_cons_succ]
      rw [measureOf_cons, measureOf_cons]
      have hj : j < rest.length := by simpa using hidx
      have h1 := ih j hj (by simpa using hlt)
      have h2 := hf e
      omega

theorem scanMin_isSome_of_acc (cmp : Cursor → Cursor → Int) :
    ∀ (st : MState) (k : Nat) (acc : Option (Nat × List Int × Cursor)),
      acc.isSome → (scanMin cmp st k acc).isSome := by
  intro st
  induction st with
  | nil => intro k acc h; exact h
  | cons e rest ih =>
    intro k acc h
    rcases e with ⟨bm, oc⟩
    cases oc with
    | none => exact ih _ _ h
    | some c =>
      cases acc with
      | none => simp at h
      | some p =>
        rcases p with ⟨j, b, m⟩
        show (scanMin cmp rest (k + 1)
          (if cmp c m < 0 then some (k, bm, c) else some (j, b, m))).isSome
        split
        · exact ih _ _ (by simp)
        · exact ih _ _ (by simp)

theorem scanMin_isSome_of_live (cmp : Cursor → Cursor → Int) :
    ∀ (st : MState) (k : Nat) (acc : Option (Nat × List Int × Cursor)),
      (∃ e ∈ st, e.2.isSome) → (scanMin cmp st k acc).isSome := by
  intro st
  induction st with
  | nil => intro k acc h; simp at h
  | cons e rest ih =>
    intro k acc h
    rcases e with ⟨bm, oc⟩
    cases oc with
    | none =>
      have h2 : ∃ e ∈ rest, e.2.isSome := by
        rcases h with ⟨e0, he0, hs0⟩
        rcases List.mem_cons.mp he0 with rfl | hm
        · simp at hs0
        · exact ⟨e0, hm, hs0⟩
      exact ih _ _ h2
    | some c =>
      cases acc with
      | none => exact scanMin_isSome_of_acc cmp rest _ _ (by simp)
      | some p =>
        rcases p with ⟨j, b, m⟩
        show (scanMin cmp rest (k + 1)
          (if cmp c m < 0 then some (k, bm, c) else some (j, b, m))).isSome
        split
        · exact scanMin_isSome_of_acc cmp rest _ _ (by simp)
        · exact scanMin_isSome_of_acc cmp rest _ _ (by simp)

theorem scanMin_mem (cmp : Cursor → Cursor → Int) :
    ∀ (st : MState) (k : Nat) (acc : Option (Nat × List Int × Cursor))
      (idx : Nat) (bm : List Int) (c : Cursor),
      scanMin cmp st k acc = some (idx, bm, c) →
      acc = some (idx, bm, c) ∨
        ∃ m, ∃ (hm : m < st.length), st[m] = (bm, some c) ∧ idx = k + m := by
  intro st
  induction st with
  | nil => intro k acc idx bm c h; exact Or.inl h
  | cons e rest ih =>
    intro k acc idx bm c h
    rcases e with ⟨bm0, oc0⟩
    cases oc0 with
    | none =>
      rcases ih (k + 1) acc idx bm c h with hacc | ⟨m, hm, hg, hi⟩
      · exact Or.inl hacc
      · exact Or.inr ⟨m + 1, by simpa using Nat.succ_lt_succ hm, by simpa using hg, by omega⟩
    | some c0 =>
      cases acc with
      | none =>
        have h' : scanMin cmp rest (k + 1) (some (k, bm0, c0)) = some (idx, bm, c) := h
        rcases ih _ _ _ _ _ h' with hacc | ⟨m, hm, hg, hi⟩
        · have h1 : k = idx ∧ bm0 = bm ∧ c0 = c := by
            simpa [Prod.ext_iff] using hacc
          refine Or.inr ⟨0, by simp, ?_, by omega⟩
          simp [h1.2.1, h1.2.2]
        · exact Or.inr ⟨m + 1, by simpa using Nat.succ_lt_succ hm, by simpa using hg, by omega⟩
      | some p =>
        rcases p with ⟨j, b, m0⟩
        have h' : scanMin cmp rest (k + 1)
            (if cmp c0 m0 < 0 then some (k, bm0, c0) else some (j, b, m0)) =
            some (idx, bm, c) := h
        rcases ih _ _ _ _ _ h' with hacc | ⟨m, hm, hg, hi⟩
        · split at hacc
          · have h1 : k = idx ∧ bm0 = bm ∧ c0 = c := by
              simpa [Prod.ext_iff] using hacc
            refine Or.inr ⟨0, by simp, ?_, by omega⟩
            simp [h1.2.1, h1.2.2]
          · exact Or.inl hacc
        · exact Or.inr ⟨m + 1, by simpa using Nat.succ_lt_succ hm, by simpa using hg, by omega⟩

theorem selectMin_mem (cmp : Cursor → Cursor → Int) (st : MState)
    (idx : Nat) (bm : List Int) (c : Cursor)
    (h : selectMin cmp st = some (idx, bm, c)) :
    ∃ (hm : idx < st.length), st[idx] = (bm, some c) := by
  rcases scanMin_mem cmp st 0 none idx bm c h with hacc | ⟨m, hm, hg, hi⟩
  · exact absurd hacc (by simp)
  · obtain rfl : idx = m := by omega
    exact ⟨hm, hg⟩

theorem selectMin_isSome (cmp : Cursor → Cursor → Int) (st : MState)
    (h : allNone st = false) : (selectMin cmp st).isSome := by
  apply scanMin_isSome_of_live
  by_contra hc
  push_neg at hc
  have hall : allNone st = true := by
    unfold allNone
    rw [List.all_eq_true]
    intro e he
    cases hq : e.2 with
    | none => simp
    | some v =>
      have := hc e he
      rw [hq] at this
      simp at this
  rw [hall] at h
  cases h

theorem map_set_decreases (st : MState) (f : Entry → Entry) (idx : Nat)
    (bm : List Int) (c : Cursor) (e' : Entry)
    (hwf : StateWF st)
    (hf : ∀ e, contrib (f e) ≤ contrib e)
    (hfw : ∀ e, EntryWF e → EntryWF (f e))
    (hig : idx < st.length) (hget : st[idx] = (bm, some c))
    (he'w : EntryWF e') (he'c : contrib e' < contrib (bm, some c)) :
    StateWF ((st.map f).set idx e') ∧
      measureOf ((st.map f).set idx e') < measureOf st := by
  constructor
  · intro k hk
    have hk2 : k < st.length := by
      simpa [List.length_set, List.length_map] using hk
    rw [List.getElem_set]
    split
    · exact he'w
    · rw [List.getElem_map]
      exact hfw _ (hwf k hk2)
  · refine measureOf_map_set_lt f hf e' st idx hig ?_
    rw [hget]
    exact he'c

theorem orIteration_decreases (st : MState) (res : List Int)
    (hwf : StateWF st) (hlive : allNone st = false) :
    StateWF (orIteration st res).1 ∧
      measureOf (orIteration st res).1 < measureOf st := by
  obtain ⟨⟨idx, bm, c⟩, hsel⟩ :=
    Option.isSome_iff_exists.mp (selectMin_isSome orComparator st hlive)
  obtain ⟨hig, hget⟩ := selectMin_mem orComparator st idx bm c hsel
  have hcwf : c.i < bm.length := by
    have h := hwf idx hig
    rw [hget] at h
    exact h
  have he'w : EntryWF (bm, advanceRun bm c) := by
    cases hadv : advanceRun bm c with
    | none => trivial
    | some c2 => exact (advanceRun_spec bm c c2 hadv).2
  have he'c : contrib (bm, advanceRun bm c) < contrib (bm, some c) := by
    cases hadv : advanceRun bm c with
    | none =>
      simp only [contrib]
      omega
    | some c2 =>
      obtain ⟨h1, _⟩ := advanceRun_spec bm c c2 hadv
      simp only [contrib]
      omega
  simp only [orIteration, hsel]
  split
  · exact map_set_decreases st (rollEntry c.bits) idx bm c _ hwf
      (contrib_rollEntry_le c.bits) (EntryWF_rollEntry c.bits) hig hget he'w he'c
  · exact map_set_decreases st (stepEntry c.bits) idx bm c _ hwf
      (contrib_stepEntry_le c.bits) (EntryWF_stepEntry c.bits) hig hget he'w he'c

theorem rollEntries_eq_map (btc : Int) :
    ∀ (st st' : MState), rollEntries btc st = some st' → st' = st.map (rollEntry btc) := by
  intro st
  induction st with
  | nil =>
    intro st' h
    cases h
    rfl
  | cons e rest ih =>
    intro st' h
    rcases e with ⟨bm, oc⟩
    cases oc with
    | none =>
      simp only [rollEntries] at h
      rcases Option.map_eq_some'.mp h with ⟨r, hr, rfl⟩
      simp [rollEntry, ih r hr]
    | some c =>
      simp only [rollEntries] at h
      cases hroll : roll bm c.i c.bits btc with
      | none =>
        rw [hroll] at h
        exact Option.noConfusion h
      | some c2 =>
        rw [hroll] at h
        rcases Option.map_eq_some'.mp h with ⟨r, hr, rfl⟩
        simp [rollEntry, hroll, ih r hr]

theorem stepEntries_eq_map (btc : Int) :
    ∀ (st st' : MState), stepEntries btc st = some st' → st' = st.map (stepEntry btc) := by
  intro st
  induction st with
  | nil =>
    intro st' h
    cases h
    rfl
  | cons e rest ih =>
    intro st' h
    rcases e with ⟨bm, oc⟩
    cases oc with
    | none =>
      simp only [stepEntries] at h
      rcases Option.map_eq_some'.mp h with ⟨r, hr, rfl⟩
      simp [stepEntry, ih r hr]
    | some c =>
      simp only [stepEntries] at h
      cases hstep : stepOnce bm c btc with
      | none =>
        rw [hstep] at h
        exact Option.noConfusion h
      | some c2 =>
        rw [hstep] at h
        rcases Option.map_eq_some'.mp h with ⟨r, hr, rfl⟩
        simp [stepEntry, hstep, ih r hr]

theorem andIteration_decreases (st : MState) (res : List Int)
    (hwf : StateWF st) (hlive : allNone st = false) :
    (∃ r, andIteration st res = .done r) ∨
      ∃ st2 res2, andIteration st res = .cont st2 res2 ∧ StateWF st2 ∧
        measureOf st2 < measureOf st := by
  obtain ⟨⟨idx, bm, c⟩, hsel⟩ :=
    Option.isSome_iff_exists.mp (selectMin_isSome andComparator st hlive)
  obtain ⟨hig, hget⟩ := selectMin_mem andComparator st idx bm c hsel
  have hcwf : c.i < bm.length := by
    have h := hwf idx hig
    rw [hget] at h
    exact h
  simp only [andIteration, hsel]
  split
  · cases hre : rollEntries c.bits (st.set idx (bm, none)) with
    | none => exact Or.inl ⟨res, rfl⟩
    | some st2 =>
      cases hadv : advanceRun bm c with
      | none => exact Or.inl ⟨pushOrMergeAtZeros res c.bits, rfl⟩
      | some c2 =>
        right
        have heq : st2.set idx (bm, some c2) =
            (st.map (rollEntry c.bits)).set idx (bm, some c2) := by
          rw [rollEntries_eq_map c.bits _ _ hre, List.map_set, List.set_set]
        have hkey := map_set_decreases st (rollEntry c.bits) idx bm c (bm, some c2) hwf
          (contrib_rollEntry_le c.bits) (EntryWF_rollEntry c.bits) hig hget
          ((advanceRun_spec bm c c2 hadv).2)
          (by
            obtain ⟨h1, _⟩ := advanceRun_spec bm c c2 hadv
            simp only [contrib]
            omega)
        refine ⟨st2.set idx (bm, some c2), pushOrMergeAtZeros res c.bits,
          rfl, ?_, ?_⟩
        · rw [heq]
          exact hkey.1
        · rw [heq]
          exact hkey.2
  · cases hse : stepEntries c.bits (st.set idx (bm, none)) with
    | none => exact Or.inl ⟨res ++ [c.bits], rfl⟩
    | some st2 =>
      cases hadv : advanceRun bm c with
      | none => exact Or.inl ⟨res ++ [c.bits], rfl⟩
      | some c2 =>
        right
        have heq : st2.set idx (bm, some c2) =
            (st.map (stepEntry c.bits)).set idx (bm, some c2) := by
          rw [stepEntries_eq_map c.bits _ _ hse, List.map_set, List.set_set]
        have hkey := map_set_decreases st (stepEntry c.bits) idx bm c (bm, some c2) hwf
          (contrib_stepEntry_le c.bits) (EntryWF_stepEntry c.bits) hig hget
          ((advanceRun_spec bm c c2 hadv).2)
          (by
            obtain ⟨h1, _⟩ := advanceRun_spec bm c c2 hadv
            simp only [contrib]
            omega)
        refine ⟨st2.set idx (bm, some c2), res ++ [c.bits],
          rfl, ?_, ?_⟩
        · rw [heq]
          exact hkey.1
        · rw [heq]
          exact hkey.2

theorem orLoop_isSome :
    ∀ (fuel : Nat) (st : MState) (res : List Int),
      StateWF st → measureOf st < fuel → (orLoop fuel st res).isSome := by
  intro fuel
  induction fuel with
  | zero =>
    intro st res _ h
    omega
  | succ n ih =>
    intro st res hwf hm
    rw [orLoop]
    split
    · simp
    · rename_i hall
      have hall2 : allNone st = false := by
        revert hall
        cases allNone st <;> simp
      obtain ⟨hwf2, hlt⟩ := orIteration_decreases st res hwf hall2
      exact ih _ _ hwf2 (by omega)

theorem andLoop_isSome :
    ∀ (fuel : Nat) (st : MState) (res : List Int),
      StateWF st → measureOf st < fuel → (andLoop fuel st res).isSome := by
  intro fuel
  induction fuel with
  | zero =>
    intro st res _ h
    omega
  | succ n ih =>
    intro st res hwf hm
    rw [andLoop]
    split
    · simp
    · rename_i hall
      have hall2 : allNone st = false := by
        revert hall
        cases allNone st <;> simp
      rcases andIteration_decreases st res hwf hall2 with ⟨r, hr⟩ | ⟨st2, res2, hc, hwf2, hlt⟩
      · rw [hr]
        rfl
      · rw [hc]
        exact ih _ _ hwf2 (by omega)

theorem initState_wf (bms : List (List Int)) : StateWF (initState bms) := by
  intro k hk
  have hk2 : k < bms.length := by simpa [initState] using hk
  unfold initState
  rw [List.getElem_map]
  split
  · rename_i h1
    simp only [EntryWF]
    omega
  · trivial

theorem initState_measure (bms : List (List Int)) :
    measureOf (initState bms) < fuelOf bms := by
  unfold fuelOf
  have h : measureOf (initState bms) ≤ (bms.map List.length).sum := by
    induction bms with
    | nil => simp [initState, measureOf]
    | cons bm rest ih =>
      have hc : contrib (bm, if 1 < bm.length then some ⟨0, bm.headI⟩ else none) ≤
          bm.length := by
        split <;> simp [contrib]
      simp only [initState, List.map_cons, measureOf_cons, List.sum_cons]
      simp only [initState] at ih
      omega
  omega

theorem bitwiseOR_total (bms : List (List Int)) : (bitwiseOR bms).isSome := by
  unfold bitwiseOR
  split
  · rfl
  · have h := orLoop_isSome (fuelOf bms) (initState bms) [] (initState_wf bms)
      (initState_measure bms)
    rcases Option.isSome_iff_exists.mp h with ⟨r, hr⟩
    rw [hr]
    rfl

theorem bitwiseAND_total (bms : List (List Int)) : (bitwiseAND bms).isSome := by
  unfold bitwiseAND
  split
  · rfl
  · have h := andLoop_isSome (fuelOf bms) (initState bms) [] (initState_wf bms)
      (initState_measure bms)
    rcases Option.isSome_iff_exists.mp h with ⟨r, hr⟩
    rw [hr]
    rfl

/-- Claim C9: for every finite list of input bitmaps of (non-negative) runs,
the merge loops of OR and of AND terminate: the loop state strictly loses
unconsumed runs at every iteration, so the fuel bound is never exhausted and
both functions return a result.  (Termination in fact holds for arbitrary
integer runs; the non-negativity hypothesis of the claim is not needed.) -/
theorem claim_C9 (bitmaps : List (List Int))
    (_h : ∀ b ∈ bitmaps, ∀ x ∈ b, 0 ≤ x) :
    (bitwiseOR bitmaps).isSome ∧ (bitwiseAND bitmaps).isSome :=
  ⟨bitwiseOR_total bitmaps, bitwiseAND_total bitmaps⟩

/-- Claim C9, witness at the two-bitmap input `[[0, 4], [2, 4]]`. -/
theorem claim_C9_witness :
    (bitwiseOR [[0, 4], [2, 4]]).isSome ∧ (bitwiseAND [[0, 4], [2, 4]]).isSome :=
  claim_C9 [[0, 4], [2, 4]] (by decide)

end RunLengthBitmap
